import Mathlib

/-!
Verification of the CryptoCoin core (TypeScript sources) against its
natural-language specification.

The embedding is a shallow one:

* `number` values that take part in arithmetic and comparisons are modelled
  as `Int` (all values occurring in the programs and the claims are integral).
* The SHA-256 digest provided by node's external `crypto` module is not part
  of the repository; every hash-dependent definition is therefore
  parametrised by an arbitrary digest function `H : String → String`
  ("deterministic, no side effects" per the spec).  Theorems are proved for
  every `H`; concrete witnesses instantiate `H` with a simple computable
  function.
* `Date.now()` timestamps and the random ids of `CryptoUtils.generateId`
  are nondeterministic inputs; operations take them as explicit parameters.
* JavaScript `Map` objects are modelled as association lists with
  first-match lookup, replace-first insertion and deletion of the matching
  key, which coincides with `Map` semantics (a `Map` holds each key once).
* The unbounded `while` loop of proof-of-work mining is modelled with an
  explicit fuel parameter; exhausted fuel returns `none`.
-/

/-! ## Association-list model of JavaScript `Map` -/

/-- Lookup: `map.get(k)`, `none` when absent. -/
def mapGet (m : List (String × α)) (k : String) : Option α :=
  (m.find? (fun p => p.1 == k)).map (fun p => p.2)

/-- Lookup with default 0: the source idiom `map.get(k) || 0`. -/
def mapGet0 (m : List (String × Int)) (k : String) : Int :=
  (mapGet m k).getD 0

/-- Update: `map.set(k, v)` — replaces the entry when the key is present
(keeping its position), appends otherwise. -/
def mapSet (m : List (String × α)) (k : String) (v : α) : List (String × α) :=
  match m with
  | [] => [(k, v)]
  | (k₁, v₁) :: rest =>
    if k₁ == k then (k, v) :: rest else (k₁, v₁) :: mapSet rest k v

/-- Removal: `map.delete(k)`.  A `Map` holds each key at most once, so
removing every entry with the key is the faithful translation. -/
def mapDelete (m : List (String × α)) (k : String) : List (String × α) :=
  m.filter (fun p => p.1 != k)

/-! ## Transaction (`transaction.ts`; the PoS file contains a verbatim copy) -/

/-- The `Transaction` class.  The optional `signature` field is never set or
read by the core and is omitted. -/
structure Transaction where
  id : String
  fromAddress : Option String
  toAddress : String
  amount : Int
  timestamp : Nat
deriving DecidableEq, Inhabited

/-- `Transaction.isValid()`.  A `null` sender (mining reward) is always
valid; otherwise the amount must be positive, both addresses non-empty
(JS truthiness of a string is non-emptiness) and distinct. -/
def Transaction.isValid (tx : Transaction) : Bool :=
  match tx.fromAddress with
  | none => true
  | some f =>
    if tx.amount ≤ 0 then false
    else if f == "" || tx.toAddress == "" then false
    else if f == tx.toAddress then false
    else true

/-! ## Hashing and Merkle utilities (`utils.ts`) -/

/-- `CryptoUtils.getDifficultyTarget`: `'0'.repeat(difficulty)`. -/
def getDifficultyTarget (difficulty : Nat) : String :=
  String.mk (List.replicate difficulty '0')

/-- One pass of the Merkle reduction loop: pair adjacent elements
left-to-right and hash each concatenation.  The right element of a pair is
`currentLevel[i + 1] || left`: JavaScript `||` falls back to `left` both
when the element is missing (an odd-length level duplicates its last
element) and when it is the falsy empty string. -/
def merkleLevel (H : String → String) : List String → List String
  | [] => []
  | [a] => [H (a ++ a)]
  | a :: b :: rest => H (a ++ (if b == "" then a else b)) :: merkleLevel H rest

/-- The `while (currentLevel.length > 1)` loop of
`CryptoUtils.calculateMerkleRoot`, with fuel.  Each pass at least halves a
level of length ≥ 2, so fuel `l.length` always suffices. -/
def merkleGoFuel (H : String → String) : Nat → List String → String
  | 0, l => l.headI
  | fuel + 1, l => if 1 < l.length then merkleGoFuel H fuel (merkleLevel H l) else l.headI

/-- `CryptoUtils.calculateMerkleRoot`: `hash('')` on the empty sequence, the
single element unchanged on a singleton, otherwise the pairwise reduction
loop until one value remains. -/
def calculateMerkleRoot (H : String → String) (transactionIds : List String) : String :=
  if transactionIds.isEmpty then H ""
  else if transactionIds.length == 1 then transactionIds.headI
  else merkleGoFuel H transactionIds.length transactionIds

/-- The header string hashed by `TransactionBlock.calculateHash`
(`index + previousHash + timestamp + merkleRoot + nonce`, JS string
concatenation). -/
def blockHashInput (index : Nat) (previousHash : String) (timestamp : Nat)
    (merkleRoot : String) (nonce : Nat) : String :=
  toString index ++ previousHash ++ toString timestamp ++ merkleRoot ++ toString nonce


/-! ## Proof-of-Work chain (`block.ts`, `blockchain.ts`) -/

/-- The `TransactionBlock` class (a `Block` whose `data` is the empty string,
carrying a transaction list and a Merkle root). -/
structure TransactionBlock where
  index : Nat
  timestamp : Nat
  data : String
  previousHash : String
  nonce : Nat
  transactions : List Transaction
  merkleRoot : String
  hash : String
deriving DecidableEq, Inhabited

/-- `TransactionBlock.calculateHash()`: digest of
`index + previousHash + timestamp + merkleRoot + nonce`. -/
def TransactionBlock.calculateHash (H : String → String) (b : TransactionBlock) : String :=
  H (blockHashInput b.index b.previousHash b.timestamp b.merkleRoot b.nonce)

/-- `TransactionBlock.hasValidTransactions()`. -/
def TransactionBlock.hasValidTransactions (b : TransactionBlock) : Bool :=
  b.transactions.all Transaction.isValid

/-- The `TransactionBlock` constructor: Merkle root over the transaction
ids, nonce 0, hash sealed immediately from the header fields. -/
def newTransactionBlock (H : String → String) (index : Nat) (transactions : List Transaction)
    (previousHash : String) (timestamp : Nat) : TransactionBlock :=
  let mr := calculateMerkleRoot H (transactions.map Transaction.id)
  { index := index, timestamp := timestamp, data := "", previousHash := previousHash,
    nonce := 0, transactions := transactions, merkleRoot := mr,
    hash := H (blockHashInput index previousHash timestamp mr 0) }

/-- The `while` loop of `Block.mineBlock`: starting from the constructor's
nonce 0, test the hash and increment the nonce until its first `difficulty`
characters equal the target.  Returns the successful nonce; `none` when the
fuel runs out (the source loop is unbounded). -/
def mineNonce (H : String → String) (difficulty index timestamp : Nat)
    (previousHash merkleRoot : String) : Nat → Nat → Option Nat
  | 0, _ => none
  | fuel + 1, n =>
    if (H (blockHashInput index previousHash timestamp merkleRoot n)).take difficulty
        = getDifficultyTarget difficulty then some n
    else mineNonce H difficulty index timestamp previousHash merkleRoot fuel (n + 1)

/-- The `Blockchain` class state. -/
structure Blockchain where
  chain : List TransactionBlock
  difficulty : Nat
  pendingTransactions : List Transaction
  miningReward : Int
  balances : List (String × Int)
deriving DecidableEq, Inhabited

/-- `Blockchain.getBalance(address)`: `balances.get(address) || 0`. -/
def Blockchain.getBalance (s : Blockchain) (address : String) : Int :=
  mapGet0 s.balances address

/-- `Blockchain.getLatestBlock()`: `chain[chain.length - 1]` (the chain is
never empty in any reachable state). -/
def Blockchain.getLatestBlock (s : Blockchain) : TransactionBlock :=
  s.chain.getLastD default

/-- `Blockchain.createGenesisBlock()` and the `Blockchain` constructor;
`gid`/`gts` are the random id and timestamp of the genesis transaction,
`gbts` the genesis block's timestamp. -/
def newBlockchain (H : String → String) (gid : String) (gts gbts : Nat) : Blockchain :=
  { chain := [newTransactionBlock H 0 [⟨gid, none, "genesis", 0, gts⟩] "0" gbts],
    difficulty := 3, pendingTransactions := [], miningReward := 10, balances := [] }

/-- `Blockchain.createTransaction(transaction)`: throws on an invalid
transaction, throws when a non-null sender's balance is insufficient,
otherwise pushes the transaction onto the pending pool.  The source throws
before any mutation, so the failure cases are modelled as errors producing
no new state. -/
def Blockchain.createTransaction (s : Blockchain) (transaction : Transaction) :
    Except String Blockchain :=
  if ¬ transaction.isValid then .error "Cannot add invalid transaction to chain"
  else if (match transaction.fromAddress with
           | some f => decide (s.getBalance f < transaction.amount)
           | none => false) then .error "Not enough balance"
  else .ok { s with pendingTransactions := s.pendingTransactions ++ [transaction] }

/-- The loop body of `Blockchain.updateBalances`: debit a non-null sender,
then credit the recipient. -/
def applyTransaction (b : List (String × Int)) (tx : Transaction) : List (String × Int) :=
  let b₁ := match tx.fromAddress with
    | some f => mapSet b f (mapGet0 b f - tx.amount)
    | none => b
  mapSet b₁ tx.toAddress (mapGet0 b₁ tx.toAddress + tx.amount)

/-- `Blockchain.updateBalances(transactions)` (the PoS file contains a
verbatim copy): debit each non-null sender, credit each recipient, in
transaction order. -/
def updateBalances (balances : List (String × Int)) (transactions : List Transaction) :
    List (String × Int) :=
  transactions.foldl applyTransaction balances

/-- `Blockchain.minePendingTransactions(miningRewardAddress)`: push the
reward transaction (id `rid`, timestamp `rts`), build a block over the whole
pool at the next index (block timestamp `bts`), mine it, append it, apply
its transactions to the balance map and clear the pool.  `none` when the
mining fuel runs out. -/
def Blockchain.minePendingTransactions (H : String → String) (s : Blockchain)
    (miningRewardAddress rid : String) (rts bts fuel : Nat) : Option Blockchain :=
  let reward : Transaction := ⟨rid, none, miningRewardAddress, s.miningReward, rts⟩
  let txs := s.pendingTransactions ++ [reward]
  let mr := calculateMerkleRoot H (txs.map Transaction.id)
  let index := s.chain.length
  let prevHash := s.getLatestBlock.hash
  match mineNonce H s.difficulty index bts prevHash mr fuel 0 with
  | none => none
  | some n =>
    let b : TransactionBlock :=
      { index := index, timestamp := bts, data := "", previousHash := prevHash,
        nonce := n, transactions := txs, merkleRoot := mr,
        hash := H (blockHashInput index prevHash bts mr n) }
    some { s with
      chain := s.chain ++ [b],
      balances := updateBalances s.balances txs,
      pendingTransactions := [] }

/-- The per-block checks of the `Blockchain.isChainValid()` loop body, for
the block `cur` at some index `i ≥ 1` with predecessor `prev`: transactions
valid, stored hash equals the recomputed hash, linkage to the predecessor's
stored hash, and the difficulty target on the stored hash. -/
def chainChecks (H : String → String) (difficulty : Nat) (prev cur : TransactionBlock) : Bool :=
  cur.hasValidTransactions && cur.hash == cur.calculateHash H
    && cur.previousHash == prev.hash
    && cur.hash.take difficulty == getDifficultyTarget difficulty

/-- The `for` loop of `isChainValid`, walking the chain from index 1. -/
def isChainValidAux (H : String → String) (difficulty : Nat) :
    TransactionBlock → List TransactionBlock → Bool
  | _, [] => true
  | prev, cur :: rest => chainChecks H difficulty prev cur && isChainValidAux H difficulty cur rest

/-- `Blockchain.isChainValid()`. -/
def Blockchain.isChainValid (H : String → String) (s : Blockchain) : Bool :=
  match s.chain with
  | [] => true
  | g :: rest => isChainValidAux H s.difficulty g rest

/-- Chain states reachable through the public mutating operations, from a
freshly constructed `Blockchain`.  Ids, timestamps and mining fuel are the
nondeterministic inputs of each step. -/
inductive Blockchain.Reachable (H : String → String) : Blockchain → Prop
  | init (gid : String) (gts gbts : Nat) : Blockchain.Reachable H (newBlockchain H gid gts gbts)
  | createTx {s s' : Blockchain} (tx : Transaction) :
      Blockchain.Reachable H s → s.createTransaction tx = .ok s' → Blockchain.Reachable H s'
  | mine {s s' : Blockchain} (addr rid : String) (rts bts fuel : Nat) :
      Blockchain.Reachable H s →
      s.minePendingTransactions H addr rid rts bts fuel = some s' → Blockchain.Reachable H s'

/-- PoW chain states reachable when no coinbase transaction is ever sealed
except the block rewards pushed by mining itself: the mine step additionally
requires the drained pool to contain only non-null senders.  (The genesis
transaction has a null sender but amount 0.) -/
inductive Blockchain.ReachableNC (H : String → String) : Blockchain → Prop
  | init (gid : String) (gts gbts : Nat) : Blockchain.ReachableNC H (newBlockchain H gid gts gbts)
  | createTx {s s' : Blockchain} (tx : Transaction) :
      Blockchain.ReachableNC H s → s.createTransaction tx = .ok s' →
      Blockchain.ReachableNC H s'
  | mine {s s' : Blockchain} (addr rid : String) (rts bts fuel : Nat) :
      Blockchain.ReachableNC H s →
      (∀ tx ∈ s.pendingTransactions, tx.fromAddress ≠ none) →
      s.minePendingTransactions H addr rid rts bts fuel = some s' →
      Blockchain.ReachableNC H s'

/-! ## Concrete instances used by witnesses and counterexamples -/

/-- A concrete digest function for concrete evaluations: prefixing with
`"000"` makes every digest meet the difficulty-3 target, so mining succeeds
at nonce 0 and stays computable. -/
def powHc : String → String := fun s => "000" ++ s

/-- A freshly constructed chain (genesis tx id `"g"`, all timestamps 0). -/
def powS0 : Blockchain := newBlockchain powHc "g" 0 0

/-- The chain after mining one block to `"alice"` (reward tx id `"r"`). -/
def powS1 : Blockchain :=
  (powS0.minePendingTransactions powHc "alice" "r" 0 0 1).getD default

/-- `powS1` after submitting `alice → bob, 5` (tx id `"t"`). -/
def powS1b : Blockchain :=
  (powS1.createTransaction ⟨"t", some "alice", "bob", 5, 0⟩).toOption.getD default

/-- `powS1b` after mining a second transaction-carrying block to `"bob"`. -/
def powS2 : Blockchain :=
  (powS1b.minePendingTransactions powHc "bob" "r2" 0 0 1).getD default


/-! ## Proof-of-Stake chain (`core/pos-blockchain.ts`) -/

/-- The `IValidator` record. -/
structure Validator where
  address : String
  stake : Int
  isActive : Bool
  joinedAt : Nat
deriving DecidableEq, Inhabited

/-- The `PosBlock` class. -/
structure PosBlock where
  index : Nat
  timestamp : Nat
  transactions : List Transaction
  previousHash : String
  validator : String
  validatorBalance : Int
  merkleRoot : String
  hash : String
deriving DecidableEq, Inhabited

/-- The header string hashed by `PosBlock.calculateHash`
(`index + previousHash + timestamp + merkleRoot + validator +
validatorBalance`). -/
def posBlockHashInput (index : Nat) (previousHash : String) (timestamp : Nat)
    (merkleRoot validator : String) (validatorBalance : Int) : String :=
  toString index ++ previousHash ++ toString timestamp ++ merkleRoot ++ validator
    ++ toString validatorBalance

/-- `PosBlock.calculateHash()`. -/
def PosBlock.calculateHash (H : String → String) (b : PosBlock) : String :=
  H (posBlockHashInput b.index b.previousHash b.timestamp b.merkleRoot b.validator
      b.validatorBalance)

/-- The `PosBlock` constructor: Merkle root over the transaction ids, hash
sealed once from the header fields (no nonce search). -/
def newPosBlock (H : String → String) (index : Nat) (transactions : List Transaction)
    (previousHash : String) (validator : String) (validatorBalance : Int)
    (timestamp : Nat) : PosBlock :=
  let mr := calculateMerkleRoot H (transactions.map Transaction.id)
  { index := index, timestamp := timestamp, transactions := transactions,
    previousHash := previousHash, validator := validator,
    validatorBalance := validatorBalance, merkleRoot := mr,
    hash := H (posBlockHashInput index previousHash timestamp mr validator validatorBalance) }

/-- The `ProofOfStakeBlockchain` class state. -/
structure ProofOfStakeBlockchain where
  chain : List PosBlock
  pendingTransactions : List Transaction
  validators : List (String × Validator)
  balances : List (String × Int)
  minimumStake : Int
  blockReward : Int
deriving DecidableEq, Inhabited

/-- `ProofOfStakeBlockchain.getBalance(address)`. -/
def ProofOfStakeBlockchain.getBalance (s : ProofOfStakeBlockchain) (address : String) : Int :=
  mapGet0 s.balances address

/-- The `ProofOfStakeBlockchain` constructor (genesis transaction id `gid`
and timestamp `gts`, genesis block timestamp `gbts`). -/
def newPoSBlockchain (H : String → String) (gid : String) (gts gbts : Nat) :
    ProofOfStakeBlockchain :=
  { chain := [newPosBlock H 0 [⟨gid, none, "genesis", 0, gts⟩] "0" "genesis" 0 gbts],
    pendingTransactions := [], validators := [], balances := [],
    minimumStake := 32, blockReward := 5 }

/-- `ProofOfStakeBlockchain.stakeTokens(address, amount)` (`now` is the
`Date.now()` value used for a new validator's `joinedAt`): fails when the
balance is below `amount` or `amount` is below `minimumStake`; on success
debits the balance and creates the validator with `stake = amount` or adds
`amount` to the existing stake. -/
def ProofOfStakeBlockchain.stakeTokens (s : ProofOfStakeBlockchain) (address : String)
    (amount : Int) (now : Nat) : Bool × ProofOfStakeBlockchain :=
  let balance := s.getBalance address
  if balance < amount then (false, s)
  else if amount < s.minimumStake then (false, s)
  else
    let balances' := mapSet s.balances address (balance - amount)
    let validators' := match mapGet s.validators address with
      | some v => mapSet s.validators address { v with stake := v.stake + amount }
      | none => mapSet s.validators address
          { address := address, stake := amount, isActive := true, joinedAt := now }
    (true, { s with balances := balances', validators := validators' })

/-- `ProofOfStakeBlockchain.unstakeTokens(address, amount)`: fails when the
address is not a validator or its stake is below `amount`; otherwise
decrements the stake, deletes the validator when the remainder falls below
`minimumStake`, and credits `amount` back to the ledger balance. -/
def ProofOfStakeBlockchain.unstakeTokens (s : ProofOfStakeBlockchain) (address : String)
    (amount : Int) : Bool × ProofOfStakeBlockchain :=
  match mapGet s.validators address with
  | none => (false, s)
  | some v =>
    if v.stake < amount then (false, s)
    else
      let v' := { v with stake := v.stake - amount }
      let validators₁ := mapSet s.validators address v'
      let validators₂ :=
        if v'.stake < s.minimumStake then mapDelete validators₁ address else validators₁
      let balances' := mapSet s.balances address (s.getBalance address + amount)
      (true, { s with validators := validators₂, balances := balances' })

/-- The accumulation walk of `selectValidator`: return the first validator
whose cumulative stake reaches the random target. -/
def selectWalk (target : ℚ) : ℚ → List (String × Validator) → Option String
  | _, [] => none
  | acc, (a, v) :: rest =>
    let acc' := acc + (v.stake : ℚ)
    if target ≤ acc' then some a else selectWalk target acc' rest

/-- `ProofOfStakeBlockchain.selectValidator()`.  `Math.random()` is modelled
by the explicit draw `r ∈ [0, 1)`; the random target is `r * totalStake`.
Returns `none` when no validator is active, the fallback
`activeValidators[0]` when the walk does not fire. -/
def ProofOfStakeBlockchain.selectValidator (s : ProofOfStakeBlockchain) (r : ℚ) :
    Option String :=
  let active := s.validators.filter (fun p => p.2.isActive)
  match active with
  | [] => none
  | (a₀, _) :: _ =>
    let totalStake : ℚ := active.foldl (fun acc p => acc + (p.2.stake : ℚ)) 0
    match selectWalk (r * totalStake) 0 active with
    | some a => some a
    | none => some a₀

/-- `ProofOfStakeBlockchain.createTransaction(transaction)` — identical to
the proof-of-work version. -/
def ProofOfStakeBlockchain.createTransaction (s : ProofOfStakeBlockchain)
    (transaction : Transaction) : Except String ProofOfStakeBlockchain :=
  if ¬ transaction.isValid then .error "Cannot add invalid transaction to chain"
  else if (match transaction.fromAddress with
           | some f => decide (s.getBalance f < transaction.amount)
           | none => false) then .error "Not enough balance"
  else .ok { s with pendingTransactions := s.pendingTransactions ++ [transaction] }

/-- `ProofOfStakeBlockchain.forgeBlock()`: select a validator (draw `r`),
push the reward transaction (id `rid`, timestamp `rts`), seal a `PosBlock`
over the whole pool (timestamp `bts`), append it, apply its transactions to
the balance map and clear the pool.  The inner `none` lookup branch cannot
occur, since `selectValidator` only returns registered addresses. -/
def ProofOfStakeBlockchain.forgeBlock (H : String → String) (s : ProofOfStakeBlockchain)
    (r : ℚ) (rid : String) (rts bts : Nat) : Bool × ProofOfStakeBlockchain :=
  match s.selectValidator r with
  | none => (false, s)
  | some sel =>
    match mapGet s.validators sel with
    | none => (false, s)
    | some v =>
      let reward : Transaction := ⟨rid, none, sel, s.blockReward, rts⟩
      let txs := s.pendingTransactions ++ [reward]
      let prevHash := (s.chain.getLastD default).hash
      let b := newPosBlock H s.chain.length txs prevHash sel v.stake bts
      (true, { s with
        chain := s.chain ++ [b],
        balances := updateBalances s.balances txs,
        pendingTransactions := [] })

/-- `ProofOfStakeBlockchain.getTotalStake()`. -/
def ProofOfStakeBlockchain.getTotalStake (s : ProofOfStakeBlockchain) : Int :=
  s.validators.foldl (fun sum p => sum + p.2.stake) 0

/-- Sum of all ledger balances. -/
def sumBalances (balances : List (String × Int)) : Int :=
  balances.foldl (fun sum p => sum + p.2) 0

/-- PoS chain states reachable through the public operations from a freshly
constructed `ProofOfStakeBlockchain`.  The `setBalance` step models the
direct writes to the public `balances` map that the source demo uses to seed
ledger balances. -/
inductive ProofOfStakeBlockchain.Reachable (H : String → String) :
    ProofOfStakeBlockchain → Prop
  | init (gid : String) (gts gbts : Nat) :
      ProofOfStakeBlockchain.Reachable H (newPoSBlockchain H gid gts gbts)
  | setBalance {s : ProofOfStakeBlockchain} (a : String) (n : Int) :
      ProofOfStakeBlockchain.Reachable H s →
      ProofOfStakeBlockchain.Reachable H { s with balances := mapSet s.balances a n }
  | stake {s : ProofOfStakeBlockchain} (a : String) (amount : Int) (now : Nat) (b : Bool)
      {s' : ProofOfStakeBlockchain} :
      ProofOfStakeBlockchain.Reachable H s →
      s.stakeTokens a amount now = (b, s') → ProofOfStakeBlockchain.Reachable H s'
  | unstake {s : ProofOfStakeBlockchain} (a : String) (amount : Int) (b : Bool)
      {s' : ProofOfStakeBlockchain} :
      ProofOfStakeBlockchain.Reachable H s →
      s.unstakeTokens a amount = (b, s') → ProofOfStakeBlockchain.Reachable H s'
  | createTx {s s' : ProofOfStakeBlockchain} (tx : Transaction) :
      ProofOfStakeBlockchain.Reachable H s →
      s.createTransaction tx = .ok s' → ProofOfStakeBlockchain.Reachable H s'
  | forge {s : ProofOfStakeBlockchain} (r : ℚ) (rid : String) (rts bts : Nat) (b : Bool)
      {s' : ProofOfStakeBlockchain} :
      ProofOfStakeBlockchain.Reachable H s →
      s.forgeBlock H r rid rts bts = (b, s') → ProofOfStakeBlockchain.Reachable H s'

/-- A fresh PoS chain (genesis id `"g"`, timestamps 0) with `"bob"` seeded
with 50 tokens, as the source demo seeds balances. -/
def posS1 : ProofOfStakeBlockchain :=
  { newPoSBlockchain powHc "g" 0 0 with balances := mapSet [] "bob" 50 }

/-- `posS1` after `stakeTokens("bob", 40)` (at `now = 0`). -/
def posS2 : ProofOfStakeBlockchain := (posS1.stakeTokens "bob" 40 0).2


/-! ## Post-seal tampering (the `main.ts` security demo) -/

/-- In-place update of the `i`-th element of a list; out-of-range indices
leave the list unchanged (JS assignment to a missing index is not relevant
here). -/
def listModify {α : Type} : List α → Nat → (α → α) → List α
  | [], _, _ => []
  | x :: xs, 0, f => f x :: xs
  | x :: xs, n + 1, f => x :: listModify xs n f

/-- The tamper `chain[i].transactions[j].amount = a` performed by the
security demo in `main.ts`: only the amount field of one sealed transaction
is overwritten, every other field of the chain state is left intact. -/
def tamperTransactionAmount (s : Blockchain) (i j : Nat) (a : Int) : Blockchain :=
  { s with chain := listModify s.chain i (fun blk =>
      { blk with transactions := listModify blk.transactions j (fun tx =>
          { tx with amount := a }) }) }

/-- The reward transaction pushed by `minePendingTransactions` (its `reward`
local). -/
def mineRewardTx (s : Blockchain) (addr rid : String) (rts : Nat) : Transaction :=
  Transaction.mk rid none addr s.miningReward rts

/-- The drained pool sealed by `minePendingTransactions`. -/
def mineTxs (s : Blockchain) (addr rid : String) (rts : Nat) : List Transaction :=
  s.pendingTransactions ++ [mineRewardTx s addr rid rts]

/-- The block produced by a `minePendingTransactions` call whose nonce
search returned `n`. -/
def minedBlock (H : String → String) (s : Blockchain) (addr rid : String)
    (rts bts n : Nat) : TransactionBlock :=
  let txs := mineTxs s addr rid rts
  let mr := calculateMerkleRoot H (txs.map Transaction.id)
  { index := s.chain.length, timestamp := bts, data := "",
    previousHash := s.getLatestBlock.hash, nonce := n, transactions := txs,
    merkleRoot := mr,
    hash := H (blockHashInput s.chain.length s.getLatestBlock.hash bts mr n) }

/-- The state produced by a `minePendingTransactions` call whose nonce
search returned `n`. -/
def minedState (H : String → String) (s : Blockchain) (addr rid : String)
    (rts bts n : Nat) : Blockchain :=
  { s with
    chain := s.chain ++ [minedBlock H s addr rid rts bts n],
    balances := updateBalances s.balances (mineTxs s addr rid rts),
    pendingTransactions := [] }

/-- The amount a transaction mints out of thin air: its amount for a
coinbase (null-sender) transaction, 0 for an ordinary transfer. -/
def coinbaseAmount (tx : Transaction) : Int :=
  match tx.fromAddress with
  | none => tx.amount
  | some _ => 0

/-! ## Concrete states used by witnesses -/

def c2S1 : Blockchain :=
  ((newBlockchain powHc "g2" 0 0).createTransaction
    ⟨"t0", none, "alice", 50, 0⟩).toOption.getD default

def c2S2 : Blockchain :=
  (c2S1.minePendingTransactions powHc "alice" "r0" 0 0 1).getD default

def c5okState : Blockchain :=
  { powS1 with pendingTransactions :=
      powS1.pendingTransactions ++ [⟨"t3", some "alice", "bob", 5, 0⟩] }

def posS3 : ProofOfStakeBlockchain := (posS2.unstakeTokens "bob" 20).2

/-! ## Lemmas about the map model -/

theorem mapGet_set_self {α : Type} (m : List (String × α)) (k : String) (v : α) :
    mapGet (mapSet m k v) k = some v := by
  induction m with
  | nil => simp [mapGet, mapSet]
  | cons p rest ih =>
    obtain ⟨k₁, v₁⟩ := p
    by_cases h : k₁ = k
    · simp [mapGet, mapSet, h]
    · simpa [mapGet, mapSet, h] using ih

theorem mapGet_set_ne {α : Type} (m : List (String × α)) (k k' : String) (v : α)
    (h : k' ≠ k) : mapGet (mapSet m k v) k' = mapGet m k' := by
  induction m with
  | nil =>
    have hne : (k == k') = false := by simpa using Ne.symm h
    simp [mapGet, mapSet, List.find?, hne]
  | cons p rest ih =>
    obtain ⟨k₁, v₁⟩ := p
    by_cases h₁ : k₁ = k
    · subst h₁; simp [mapGet, mapSet, Ne.symm h, h]
    · by_cases h₂ : k₁ = k'
      · subst h₂; simp [mapGet, mapSet, h₁]
      · simpa [mapGet, mapSet, h₁, h₂] using ih

theorem mapGet_delete_self {α : Type} (m : List (String × α)) (k : String) :
    mapGet (mapDelete m k) k = none := by
  induction m with
  | nil => simp [mapGet, mapDelete]
  | cons p rest ih =>
    obtain ⟨k₁, v₁⟩ := p
    by_cases h : k₁ = k
    · simp only [mapGet, mapDelete] at ih ⊢
      simp [h, ih]
    · simp only [mapGet, mapDelete] at ih ⊢
      simp [h, ih]

theorem mapGet_delete_ne {α : Type} (m : List (String × α)) (k k' : String) (h : k' ≠ k) :
    mapGet (mapDelete m k) k' = mapGet m k' := by
  induction m with
  | nil => simp [mapGet, mapDelete]
  | cons p rest ih =>
    obtain ⟨k₁, v₁⟩ := p
    by_cases h₁ : k₁ = k
    · subst h₁; simpa [mapGet, mapDelete, Ne.symm h] using ih
    · by_cases h₂ : k₁ = k'
      · subst h₂; simp [mapGet, mapDelete, h₁]
      · simpa [mapGet, mapDelete, h₁, h₂] using ih

theorem mapDelete_mapSet {α : Type} (m : List (String × α)) (k : String) (v : α) :
    mapDelete (mapSet m k v) k = mapDelete m k := by
  induction m with
  | nil => simp [mapSet, mapDelete]
  | cons p rest ih =>
    obtain ⟨k₁, v₁⟩ := p
    by_cases h : k₁ = k
    · simp [mapSet, mapDelete, h]
    · simpa [mapSet, mapDelete, h] using ih

/-- Folding addition from an arbitrary accumulator equals the accumulator
plus the mapped sum: bridges the source's `reduce` / `foldl` loops to
`List.sum`. -/
theorem foldl_add_eq {α : Type} (f : α → Int) (l : List α) (c : Int) :
    l.foldl (fun sum p => sum + f p) c = c + (l.map f).sum := by
  induction l generalizing c with
  | nil => simp
  | cons x xs ih => simp [ih]; ring

theorem sumBalances_eq (l : List (String × Int)) :
    sumBalances l = (l.map Prod.snd).sum := by
  simpa using foldl_add_eq Prod.snd l 0

theorem getTotalStake_eq (s : ProofOfStakeBlockchain) :
    s.getTotalStake = (s.validators.map (fun p => p.2.stake)).sum := by
  simpa using foldl_add_eq (fun p => p.2.stake) s.validators 0

theorem sum_mapSet (m : List (String × Int)) (k : String) (v : Int) :
    ((mapSet m k v).map Prod.snd).sum = (m.map Prod.snd).sum - mapGet0 m k + v := by
  induction m with
  | nil => simp [mapSet, mapGet0, mapGet]
  | cons p rest ih =>
    obtain ⟨k₁, v₁⟩ := p
    by_cases h : k₁ = k
    · simp [mapSet, mapGet0, mapGet, h]; ring
    · simp [mapSet, mapGet0, mapGet, h] at ih ⊢; omega

theorem sum_stakes_delete (m : List (String × Validator)) (k : String) (v : Validator)
    (hnd : (m.map Prod.fst).Nodup) (h : mapGet m k = some v) :
    ((mapDelete m k).map (fun p => p.2.stake)).sum
      = (m.map (fun p => p.2.stake)).sum - v.stake := by
  induction m with
  | nil => simp [mapGet] at h
  | cons p rest ih =>
    obtain ⟨k₁, v₁⟩ := p
    simp only [List.map_cons, List.nodup_cons] at hnd
    by_cases hk : k₁ = k
    · subst hk
      have hv : v₁ = v := by simpa [mapGet] using h
      have hrest : List.filter (fun p => p.1 != k₁) rest = rest := by
        refine List.filter_eq_self.mpr ?_
        intro a ha
        have hne : a.1 ≠ k₁ := by
          intro hcontra
          exact hnd.1 (by simpa [hcontra] using List.mem_map_of_mem Prod.fst ha)
        simpa using hne
      have hdel : mapDelete ((k₁, v₁) :: rest) k₁ = rest := by
        simp [mapDelete, hrest]
      rw [hdel, ← hv]
      simp only [List.map_cons, List.sum_cons]
      ring
    · have hskip : mapGet rest k = some v := by
        have hne : (k₁ == k) = false := by simpa using hk
        simpa [mapGet, List.find?, hne] using h
      have hsum := ih hnd.2 hskip
      have hcons : mapDelete ((k₁, v₁) :: rest) k = (k₁, v₁) :: mapDelete rest k := by
        simp [mapDelete, hk]
      rw [hcons]
      simp only [List.map_cons, List.sum_cons]
      rw [hsum]
      ring


/-! ## Lemmas about the Merkle reduction -/

theorem merkleLevel_length (H : String → String) :
    ∀ l : List String, (merkleLevel H l).length = (l.length + 1) / 2
  | [] => by simp [merkleLevel]
  | [a] => by simp [merkleLevel]
  | a :: b :: rest => by
    simp [merkleLevel, merkleLevel_length H rest]
    omega

/-- With enough fuel, the fuel value is irrelevant: `merkleGoFuel` computes
the fixpoint of the source's `while` loop. -/
theorem merkleGoFuel_congr (H : String → String) :
    ∀ (fuel₁ fuel₂ : Nat) (l : List String), l.length ≤ fuel₁ → l.length ≤ fuel₂ →
      merkleGoFuel H fuel₁ l = merkleGoFuel H fuel₂ l := by
  intro fuel₁
  induction fuel₁ with
  | zero =>
    intro fuel₂ l h₁ h₂
    have hl : l = [] := List.length_eq_zero.mp (Nat.le_zero.mp h₁)
    subst hl
    cases fuel₂ <;> simp [merkleGoFuel]
  | succ f ih =>
    intro fuel₂ l h₁ h₂
    by_cases hlen : 1 < l.length
    · obtain ⟨g, rfl⟩ : ∃ g, fuel₂ = g + 1 := by
        cases fuel₂ with
        | zero => omega
        | succ g => exact ⟨g, rfl⟩
      simp only [merkleGoFuel, hlen, if_true]
      have hlev : (merkleLevel H l).length = (l.length + 1) / 2 := merkleLevel_length H l
      exact ih g (merkleLevel H l) (by omega) (by omega)
    · cases fuel₂ <;> simp [merkleGoFuel, hlen]

/-- One pass of the reduction: for a level of length at least two the Merkle
root is the Merkle root of the next level. -/
theorem calculateMerkleRoot_step (H : String → String) (l : List String)
    (h : 2 ≤ l.length) :
    calculateMerkleRoot H l = calculateMerkleRoot H (merkleLevel H l) := by
  have hlev : (merkleLevel H l).length = (l.length + 1) / 2 := merkleLevel_length H l
  have hne : l.isEmpty = false := by
    cases l with
    | nil => simp at h
    | cons a rest => simp
  have hlen1 : (l.length == 1) = false := by simp; omega
  rw [calculateMerkleRoot, hne, hlen1]
  simp only [Bool.false_eq_true, if_false]
  by_cases hone : (merkleLevel H l).length = 1
  · have : merkleGoFuel H l.length l = merkleGoFuel H (l.length - 1) (merkleLevel H l) := by
      cases hfuel : l.length with
      | zero => omega
      | succ f =>
        simp only [merkleGoFuel, show 1 < l.length from by omega, if_true,
          Nat.add_sub_cancel]
    rw [this]
    have hgo : merkleGoFuel H (l.length - 1) (merkleLevel H l) = (merkleLevel H l).headI := by
      cases hf : l.length - 1 with
      | zero => simp [merkleGoFuel]
      | succ g => simp [merkleGoFuel, hone]
    rw [hgo, calculateMerkleRoot]
    have : (merkleLevel H l).isEmpty = false := by
      cases hml : merkleLevel H l with
      | nil => rw [hml] at hone; simp at hone
      | cons a rest => simp
    rw [this]
    simp [hone]
  · have hge : 2 ≤ (merkleLevel H l).length := by
      have : 1 ≤ (merkleLevel H l).length := by omega
      omega
    have hne' : (merkleLevel H l).isEmpty = false := by
      cases hml : merkleLevel H l with
      | nil => rw [hml] at hge; simp at hge
      | cons a rest => simp
    rw [calculateMerkleRoot, hne']
    have hlen1' : ((merkleLevel H l).length == 1) = false := by simp; omega
    rw [hlen1']
    simp only [Bool.false_eq_true, if_false]
    have hstep : merkleGoFuel H l.length l
        = merkleGoFuel H (l.length - 1) (merkleLevel H l) := by
      cases hfuel : l.length with
      | zero => omega
      | succ f =>
        simp only [merkleGoFuel, show 1 < l.length from by omega, if_true,
          Nat.add_sub_cancel]
    rw [hstep]
    exact merkleGoFuel_congr H (l.length - 1) (merkleLevel H l).length (merkleLevel H l)
      (by omega) (by omega)

/-! ## Lemmas about mining and the chain operations -/

/-- A successful nonce search returns a nonce whose block hash meets the
difficulty target. -/
theorem mineNonce_spec (H : String → String) (d i ts : Nat) (ph mr : String) :
    ∀ (fuel n m : Nat), mineNonce H d i ts ph mr fuel n = some m →
      (H (blockHashInput i ph ts mr m)).take d = getDifficultyTarget d := by
  intro fuel
  induction fuel with
  | zero => intro n m h; simp [mineNonce] at h
  | succ f ih =>
    intro n m h
    rw [mineNonce] at h
    split at h
    · cases h
      assumption
    · exact ih (n + 1) m h

/-- Characterisation of a successful `createTransaction`. -/
theorem createTransaction_ok {s s' : Blockchain} {tx : Transaction}
    (h : s.createTransaction tx = .ok s') :
    s' = { s with pendingTransactions := s.pendingTransactions ++ [tx] }
      ∧ tx.isValid = true
      ∧ ∀ f, tx.fromAddress = some f → tx.amount ≤ s.getBalance f := by
  rw [Blockchain.createTransaction] at h
  split_ifs at h with h₁ h₂
  all_goals simp at h
  subst h
  refine ⟨rfl, by simpa using h₁, ?_⟩
  intro f hf
  rw [hf] at h₂
  exact not_lt.mp (by simpa using h₂)

/-- Characterisation of a successful `minePendingTransactions`. -/
theorem mine_some {H : String → String} {s s' : Blockchain} {addr rid : String}
    {rts bts fuel : Nat}
    (h : s.minePendingTransactions H addr rid rts bts fuel = some s') :
    ∃ n : Nat,
      mineNonce H s.difficulty s.chain.length bts s.getLatestBlock.hash
        (calculateMerkleRoot H ((mineTxs s addr rid rts).map Transaction.id)) fuel 0
        = some n
      ∧ s' = minedState H s addr rid rts bts n := by
  rw [Blockchain.minePendingTransactions] at h
  simp only at h
  split at h
  · exact absurd h (by simp)
  · next n heq =>
    refine ⟨n, heq, ?_⟩
    have hs := (Option.some.inj h).symm
    simpa [minedState, minedBlock, mineTxs, mineRewardTx] using hs

theorem sum_applyTransaction (b : List (String × Int)) (tx : Transaction) :
    ((applyTransaction b tx).map Prod.snd).sum
      = (b.map Prod.snd).sum + coinbaseAmount tx := by
  cases hf : tx.fromAddress with
  | none =>
    simp only [applyTransaction, hf, coinbaseAmount]
    rw [sum_mapSet]
    omega
  | some f =>
    simp only [applyTransaction, hf, coinbaseAmount]
    rw [sum_mapSet, sum_mapSet]
    omega

theorem sum_updateBalances (txs : List Transaction) :
    ∀ bal : List (String × Int),
      ((updateBalances bal txs).map Prod.snd).sum
        = (bal.map Prod.snd).sum + (txs.map coinbaseAmount).sum := by
  induction txs with
  | nil => intro bal; simp [updateBalances]
  | cons tx rest ih =>
    intro bal
    have hstep : updateBalances bal (tx :: rest)
        = updateBalances (applyTransaction bal tx) rest := rfl
    rw [hstep, ih, sum_applyTransaction]
    simp only [List.map_cons, List.sum_cons]
    omega

/-- C6: in every reachable proof-of-work chain state, every block sealed by
the proof-of-work algorithm — every block at index `i ≥ 1`, genesis being
constructed directly rather than sealed by the §4.3 nonce search — has a
hash whose first `difficulty` characters equal the difficulty target, the
string of `difficulty` zero characters. -/
theorem pow_sealed_blocks_meet_difficulty_target (H : String → String) (s : Blockchain)
    (h : Blockchain.Reachable H s) :
    ∀ (i : Nat) (b : TransactionBlock), 1 ≤ i → s.chain[i]? = some b →
      b.hash.take s.difficulty = getDifficultyTarget s.difficulty := by
  induction h with
  | init gid gts gbts =>
    intro i b hi hb
    cases i with
    | zero => omega
    | succ j => simp [newBlockchain] at hb
  | @createTx s s' tx hr hok ih =>
    obtain ⟨rfl, -, -⟩ := createTransaction_ok hok
    intro i b hi hb
    exact ih i b hi hb
  | @mine s s' addr rid rts bts fuel hr hm ih =>
    obtain ⟨n, hn, rfl⟩ := mine_some hm
    intro i b hi hb
    simp only [minedState] at hb ⊢
    rcases Nat.lt_or_ge i s.chain.length with hlt | hge
    · rw [List.getElem?_append_left hlt] at hb
      exact ih i b hi hb
    · rw [List.getElem?_append_right hge] at hb
      have hlt1 : i - s.chain.length < 1 := by
        obtain ⟨hh, -⟩ := List.getElem?_eq_some.mp hb
        simpa using hh
      have hix : i - s.chain.length = 0 := by omega
      rw [hix] at hb
      simp only [List.getElem?_cons_zero, Option.some.injEq] at hb
      subst hb
      simpa [minedBlock] using
        mineNonce_spec H s.difficulty s.chain.length bts s.getLatestBlock.hash
          (calculateMerkleRoot H ((mineTxs s addr rid rts).map Transaction.id)) fuel 0 n hn

/-- C7: in every proof-of-work chain state reached by `createTransaction`
and `minePendingTransactions` calls in which the only null-sender
transactions ever sealed are the per-block reward transactions (besides the
zero-amount genesis transaction), the sum of all ledger balances equals
`miningReward` times the number of non-genesis blocks: ordinary transfers
are balance-neutral, so only the block rewards mint value. -/
theorem pow_balance_conservation (H : String → String) (s : Blockchain)
    (h : Blockchain.ReachableNC H s) :
    sumBalances s.balances = s.miningReward * ((s.chain.length - 1 : Nat) : Int) := by
  have key : 1 ≤ s.chain.length
      ∧ (s.balances.map Prod.snd).sum
          = s.miningReward * ((s.chain.length - 1 : Nat) : Int) := by
    induction h with
    | init gid gts gbts => simp [newBlockchain]
    | @createTx s s' tx hr hok ih =>
      obtain ⟨rfl, -, -⟩ := createTransaction_ok hok
      exact ih
    | @mine s s' addr rid rts bts fuel hr hpend hm ih =>
      obtain ⟨n, -, rfl⟩ := mine_some hm
      obtain ⟨hlen, hsum⟩ := ih
      constructor
      · simp [minedState]
      · simp only [minedState]
        rw [sum_updateBalances]
        have hpsum : (s.pendingTransactions.map coinbaseAmount).sum = 0 := by
          apply List.sum_eq_zero
          intro x hx
          simp only [List.mem_map] at hx
          obtain ⟨tx, htx, rfl⟩ := hx
          cases hfa : tx.fromAddress with
          | none => exact absurd hfa (hpend tx htx)
          | some f => simp [coinbaseAmount, hfa]
        have hcast : ((s.chain.length - 1 : Nat) : Int) = (s.chain.length : Int) - 1 := by
          omega
        have hmtxs : ((mineTxs s addr rid rts).map coinbaseAmount).sum = s.miningReward := by
          simp [mineTxs, mineRewardTx, hpsum, coinbaseAmount]
        rw [hmtxs, hsum, hcast]
        have hlen2 : (s.chain ++ [minedBlock H s addr rid rts bts n]).length
            = s.chain.length + 1 := by simp
        rw [hlen2]
        have : ((s.chain.length + 1 - 1 : Nat) : Int) = (s.chain.length : Int) := by
          simp
        rw [this]
        ring
  rw [sumBalances_eq]
  exact key.2

/-- Characterisation of a successful PoS `createTransaction`. -/
theorem posCreateTransaction_ok {s s' : ProofOfStakeBlockchain} {tx : Transaction}
    (h : s.createTransaction tx = .ok s') :
    s' = { s with pendingTransactions := s.pendingTransactions ++ [tx] } := by
  rw [ProofOfStakeBlockchain.createTransaction] at h
  split_ifs at h with h₁ h₂
  all_goals simp at h
  exact h.symm

/-- `forgeBlock` never touches the validator registry or the minimum
stake. -/
theorem forgeBlock_preserves {H : String → String} {s s' : ProofOfStakeBlockchain}
    {r : ℚ} {rid : String} {rts bts : Nat} {b : Bool}
    (h : s.forgeBlock H r rid rts bts = (b, s')) :
    s'.validators = s.validators ∧ s'.minimumStake = s.minimumStake := by
  rw [ProofOfStakeBlockchain.forgeBlock] at h
  split at h
  · obtain ⟨-, rfl⟩ := Prod.mk.inj h
    exact ⟨rfl, rfl⟩
  · split at h
    · obtain ⟨-, rfl⟩ := Prod.mk.inj h
      exact ⟨rfl, rfl⟩
    · obtain ⟨-, rfl⟩ := Prod.mk.inj h
      exact ⟨rfl, rfl⟩

/-- C9: in every reachable proof-of-stake chain state an address is present
in the validator registry only with a recorded stake of at least
`minimumStake`, and a successful `unstakeTokens` whose remainder falls below
`minimumStake` removes the address from the registry — together: membership
in the registry coincides with holding at least the minimum stake. -/
theorem pos_validator_stake_threshold (H : String → String) (s : ProofOfStakeBlockchain)
    (h : ProofOfStakeBlockchain.Reachable H s) :
    (∀ a v, mapGet s.validators a = some v → s.minimumStake ≤ v.stake)
      ∧ (∀ a amount s₂ v, s.unstakeTokens a amount = (true, s₂) →
          mapGet s.validators a = some v → v.stake - amount < s.minimumStake →
          mapGet s₂.validators a = none) := by
  have key : s.minimumStake = 32
      ∧ ∀ a v, mapGet s.validators a = some v → s.minimumStake ≤ v.stake := by
    induction h with
    | init gid gts gbts =>
      refine ⟨rfl, ?_⟩
      intro a v hav
      simp [newPoSBlockchain, mapGet] at hav
    | @setBalance s a n hr ih => exact ih
    | @stake s a amount now b s' hr hstep ih =>
      rw [ProofOfStakeBlockchain.stakeTokens] at hstep
      split_ifs at hstep with h₁ h₂
      · obtain ⟨-, rfl⟩ := Prod.mk.inj hstep
        exact ih
      · obtain ⟨-, rfl⟩ := Prod.mk.inj hstep
        exact ih
      · obtain ⟨-, rfl⟩ := Prod.mk.inj hstep
        refine ⟨ih.1, ?_⟩
        intro a' v' hav'
        simp only at hav'
        cases hv0 : mapGet s.validators a with
        | none =>
          rw [hv0] at hav'
          by_cases ha : a' = a
          · subst ha
            rw [mapGet_set_self] at hav'
            cases hav'
            simpa using not_lt.mp h₂
          · rw [mapGet_set_ne _ _ _ _ ha] at hav'
            exact ih.2 a' v' hav'
        | some v0 =>
          rw [hv0] at hav'
          by_cases ha : a' = a
          · subst ha
            rw [mapGet_set_self] at hav'
            cases hav'
            have hmin : s.minimumStake ≤ v0.stake := ih.2 a' v0 hv0
            have hamt : s.minimumStake ≤ amount := not_lt.mp h₂
            simp only
            rw [ih.1] at hmin hamt ⊢
            omega
          · rw [mapGet_set_ne _ _ _ _ ha] at hav'
            exact ih.2 a' v' hav'
    | @unstake s a amount b s' hr hstep ih =>
      rw [ProofOfStakeBlockchain.unstakeTokens] at hstep
      split at hstep
      · obtain ⟨-, rfl⟩ := Prod.mk.inj hstep
        exact ih
      · next v hv =>
        split_ifs at hstep with h₁
        · obtain ⟨-, rfl⟩ := Prod.mk.inj hstep
          exact ih
        · obtain ⟨-, rfl⟩ := Prod.mk.inj hstep
          refine ⟨ih.1, ?_⟩
          intro a' v' hav'
          simp only at hav'
          by_cases hlow : v.stake - amount < s.minimumStake
          · rw [if_pos (by simpa using hlow)] at hav'
            by_cases ha : a' = a
            · subst ha
              rw [mapDelete_mapSet, mapGet_delete_self] at hav'
              cases hav'
            · rw [mapGet_delete_ne _ _ _ ha, mapGet_set_ne _ _ _ _ ha] at hav'
              exact ih.2 a' v' hav'
          · rw [if_neg (by simpa using hlow)] at hav'
            by_cases ha : a' = a
            · subst ha
              rw [mapGet_set_self] at hav'
              cases hav'
              simpa using not_lt.mp hlow
            · rw [mapGet_set_ne _ _ _ _ ha] at hav'
              exact ih.2 a' v' hav'
    | @createTx s s' tx hr hok ih =>
      have := posCreateTransaction_ok hok
      subst this
      exact ih
    | @forge s r rid rts bts b s' hr hstep ih =>
      obtain ⟨hv, hm⟩ := forgeBlock_preserves hstep
      rw [hv, hm]
      exact ih
  refine ⟨key.2, ?_⟩
  intro a amount s₂ v hstep hv hlow
  rw [ProofOfStakeBlockchain.unstakeTokens, hv] at hstep
  simp only at hstep
  split_ifs at hstep with h₁
  · simp at hstep
  · obtain ⟨-, rfl⟩ := Prod.mk.inj hstep
    rw [mapDelete_mapSet, mapGet_delete_self]

theorem mapGet0_set_self (m : List (String × Int)) (k : String) (v : Int) :
    mapGet0 (mapSet m k v) k = v := by
  simp [mapGet0, mapGet_set_self]

/-- C8: `stakeTokens` fails, returning `false` and leaving the whole state
(registry and balances included) unchanged, whenever the balance is below
the requested amount or the amount is below `minimumStake` — the latter even
for an already-registered validator; otherwise it returns `true`, debits
exactly `amount` from the caller's balance (other balances untouched) and
creates the validator with `stake = amount`, or adds `amount` to an existing
validator's stake. -/
theorem pos_stakeTokens_spec (s : ProofOfStakeBlockchain) (address : String)
    (amount : Int) (now : Nat) :
    ((s.getBalance address < amount ∨ amount < s.minimumStake) →
        s.stakeTokens address amount now = (false, s))
      ∧ (amount ≤ s.getBalance address → s.minimumStake ≤ amount →
          (s.stakeTokens address amount now).1 = true
          ∧ (s.stakeTokens address amount now).2.getBalance address
              = s.getBalance address - amount
          ∧ (∀ a, a ≠ address →
              (s.stakeTokens address amount now).2.getBalance a = s.getBalance a)
          ∧ (mapGet s.validators address = none →
              mapGet (s.stakeTokens address amount now).2.validators address
                = some { address := address, stake := amount, isActive := true,
                         joinedAt := now })
          ∧ (∀ v, mapGet s.validators address = some v →
              mapGet (s.stakeTokens address amount now).2.validators address
                = some { v with stake := v.stake + amount })) := by
  constructor
  · intro h
    by_cases hb : s.getBalance address < amount
    · simp [ProofOfStakeBlockchain.stakeTokens, hb]
    · rcases h with h | h
      · exact absurd h hb
      · simp [ProofOfStakeBlockchain.stakeTokens, hb, h]
  · intro hba hma
    have hcond₁ : ¬ s.getBalance address < amount := not_lt.mpr hba
    have hcond₂ : ¬ amount < s.minimumStake := not_lt.mpr hma
    have hres : s.stakeTokens address amount now
        = (true, { s with
            balances := mapSet s.balances address (s.getBalance address - amount),
            validators := match mapGet s.validators address with
              | some v => mapSet s.validators address { v with stake := v.stake + amount }
              | none => mapSet s.validators address
                  { address := address, stake := amount, isActive := true,
                    joinedAt := now } }) := by
      simp only [ProofOfStakeBlockchain.stakeTokens, if_neg hcond₁, if_neg hcond₂]
    refine ⟨by rw [hres], ?_, ?_, ?_, ?_⟩
    · rw [hres]
      simp [ProofOfStakeBlockchain.getBalance, mapGet0_set_self]
    · intro a ha
      rw [hres]
      simp [ProofOfStakeBlockchain.getBalance, mapGet0, mapGet_set_ne _ _ _ _ ha]
    · intro hv
      rw [hres]
      simp only [hv, mapGet_set_self]
    · intro v hv
      rw [hres]
      simp only [hv, mapGet_set_self]

/-- C10: a successful `unstakeTokens` whose remainder `v.stake - amount`
lies strictly between 0 and `minimumStake` deletes the validator but credits
only `amount` back, so the residual staked tokens vanish: the total stake
plus the sum of all ledger balances strictly decreases by the residual.
(The `Nodup` hypothesis states that the registry holds each address once,
which is guaranteed for a JavaScript `Map`.) -/
theorem pos_unstake_burns_residual_stake (s : ProofOfStakeBlockchain) (address : String)
    (amount : Int) (s₂ : ProofOfStakeBlockchain) (v : Validator)
    (hnd : (s.validators.map Prod.fst).Nodup)
    (hv : mapGet s.validators address = some v)
    (h : s.unstakeTokens address amount = (true, s₂))
    (h0 : 0 < v.stake - amount) (hlow : v.stake - amount < s.minimumStake) :
    mapGet s₂.validators address = none
      ∧ s₂.getBalance address = s.getBalance address + amount
      ∧ s₂.getTotalStake + sumBalances s₂.balances
          = s.getTotalStake + sumBalances s.balances - (v.stake - amount)
      ∧ s₂.getTotalStake + sumBalances s₂.balances
          < s.getTotalStake + sumBalances s.balances := by
  rw [ProofOfStakeBlockchain.unstakeTokens, hv] at h
  simp only at h
  split_ifs at h with h₁
  · exact absurd (by omega : ¬ v.stake < amount) (fun hcontra => hcontra h₁)
  · obtain ⟨-, rfl⟩ := Prod.mk.inj h
    have hdel : mapDelete (mapSet s.validators address
        { address := v.address, stake := v.stake - amount, isActive := v.isActive,
          joinedAt := v.joinedAt }) address = mapDelete s.validators address :=
      mapDelete_mapSet _ _ _
    refine ⟨?_, ?_, ?_, ?_⟩
    · rw [hdel, mapGet_delete_self]
    · simp [ProofOfStakeBlockchain.getBalance, mapGet0_set_self]
    · have htot : ((mapDelete s.validators address).map (fun p => p.2.stake)).sum
          = (s.validators.map (fun p => p.2.stake)).sum - v.stake :=
        sum_stakes_delete s.validators address v hnd hv
      rw [getTotalStake_eq, getTotalStake_eq, sumBalances_eq, sumBalances_eq]
      simp only [hdel]
      rw [htot, sum_mapSet]
      have : mapGet0 s.balances address + amount - mapGet0 s.balances address = amount := by
        ring
      simp only [ProofOfStakeBlockchain.getBalance]
      omega
    · have htot : ((mapDelete s.validators address).map (fun p => p.2.stake)).sum
          = (s.validators.map (fun p => p.2.stake)).sum - v.stake :=
        sum_stakes_delete s.validators address v hnd hv
      rw [getTotalStake_eq, getTotalStake_eq, sumBalances_eq, sumBalances_eq]
      simp only [hdel]
      rw [htot, sum_mapSet]
      simp only [ProofOfStakeBlockchain.getBalance]
      omega

/-- A two-element level reduces to the hash of the concatenation when the
right element is non-empty (truthy). -/
theorem calculateMerkleRoot_pair (H : String → String) (a b : String) (hb : b ≠ "") :
    calculateMerkleRoot H [a, b] = H (a ++ b) := by
  rw [calculateMerkleRoot_step H [a, b] (by simp)]
  have hlev : merkleLevel H [a, b] = [H (a ++ b)] := by
    simp [merkleLevel, hb]
  rw [hlev]
  rfl

/-- C3 (counterexample): the claim asserts `merkleRoot [a, b] = hash(a + b)`
for every sequence of ids, but at `["x", ""]` the program's
`currentLevel[i + 1] || left` treats the falsy empty string as missing and
duplicates the left element: the code computes `hash("x" + "x")`, not
`hash("x" + "")`. -/
theorem calculateMerkleRoot_empty_id_counterexample :
    calculateMerkleRoot (fun s => "#" ++ s) ["x", ""]
        ≠ (fun s => "#" ++ s) ("x" ++ "")
      ∧ calculateMerkleRoot (fun s => "#" ++ s) ["x", ""]
        = (fun s => "#" ++ s) ("x" ++ "x") := by
  decide

/-- C3 (amended): `calculateMerkleRoot` returns `hash("")` on the empty
sequence, the single element unchanged (not re-hashed) on a singleton, and
otherwise reduces level by level — pairing adjacent elements left-to-right,
with the left element duplicated when its right partner is missing (odd
level length) or is the falsy empty string (`currentLevel[i+1] || left`) —
until one value remains: `merkleRoot [a] = a`; for a non-empty `b`,
`merkleRoot [a,b] = hash(a+b)` with nothing duplicated; for non-empty `b`
and `hash(c+c)`, `merkleRoot [a,b,c]` duplicates `c` at the odd level.  The
result is a function of the id sequence (deterministic) and, for an
injective digest and non-empty ids, order-sensitive. -/
theorem calculateMerkleRoot_spec (H : String → String) (a b c : String) (l : List String) :
    calculateMerkleRoot H [] = H ""
      ∧ calculateMerkleRoot H [a] = a
      ∧ (b ≠ "" → calculateMerkleRoot H [a, b] = H (a ++ b))
      ∧ (b ≠ "" → H (c ++ c) ≠ "" →
          calculateMerkleRoot H [a, b, c] = H (H (a ++ b) ++ H (c ++ c)))
      ∧ (2 ≤ l.length → calculateMerkleRoot H l = calculateMerkleRoot H (merkleLevel H l))
      ∧ (Function.Injective H → a ++ b ≠ b ++ a → a ≠ "" → b ≠ "" →
          calculateMerkleRoot H [a, b] ≠ calculateMerkleRoot H [b, a]) := by
  refine ⟨rfl, rfl, calculateMerkleRoot_pair H a b, ?_, calculateMerkleRoot_step H l, ?_⟩
  · intro hb hcc
    rw [calculateMerkleRoot_step H [a, b, c] (by simp)]
    have hlev : merkleLevel H [a, b, c] = [H (a ++ b), H (c ++ c)] := by
      simp [merkleLevel, hb]
    rw [hlev]
    exact calculateMerkleRoot_pair H (H (a ++ b)) (H (c ++ c)) hcc
  · intro hinj hne ha hb hcontra
    rw [calculateMerkleRoot_pair H a b hb, calculateMerkleRoot_pair H b a ha] at hcontra
    exact hne (hinj hcontra)

/-- C4: `isValid()` is `true` for every null-sender transaction regardless
of amount or recipient, and for a non-null sender it is `true` exactly when
the amount is positive, both addresses are non-empty and the sender differs
from the recipient.  The embedding is a total function, so `isValid` never
throws. -/
theorem transaction_isValid_spec (tx : Transaction) :
    (tx.fromAddress = none → tx.isValid = true)
      ∧ (∀ f, tx.fromAddress = some f →
          (tx.isValid = true ↔
            0 < tx.amount ∧ f ≠ "" ∧ tx.toAddress ≠ "" ∧ f ≠ tx.toAddress)) := by
  constructor
  · intro h
    simp [Transaction.isValid, h]
  · intro f hf
    simp only [Transaction.isValid, hf]
    split_ifs with h₁ h₂ h₃
    · simp
      omega
    · simp at h₂
      rcases h₂ with h₂ | h₂ <;> simp [h₂]
    · simp at h₃
      simp [h₃]
    · simp at h₂ h₃
      simp [h₂, h₃]
      omega

/-- C5: `createTransaction` fails with the invalid-transaction error when
`isValid()` is false, fails with the insufficient-balance error when the
sender is non-null and underfunded, and otherwise succeeds; a success
changes nothing but appending the transaction to the pending pool, and a
failure produces no new state at all (the source throws before any
mutation). -/
theorem pow_createTransaction_spec (s : Blockchain) (tx : Transaction) :
    (tx.isValid = false →
        s.createTransaction tx = .error "Cannot add invalid transaction to chain")
      ∧ (tx.isValid = true → ∀ f, tx.fromAddress = some f →
          s.getBalance f < tx.amount →
          s.createTransaction tx = .error "Not enough balance")
      ∧ (tx.isValid = true → (∀ f, tx.fromAddress = some f → tx.amount ≤ s.getBalance f) →
          s.createTransaction tx
            = .ok { s with pendingTransactions := s.pendingTransactions ++ [tx] })
      ∧ (∀ s', s.createTransaction tx = .ok s' →
          s'.chain = s.chain ∧ s'.balances = s.balances ∧ s'.difficulty = s.difficulty
            ∧ s'.miningReward = s.miningReward
            ∧ s'.pendingTransactions = s.pendingTransactions ++ [tx]) := by
  refine ⟨?_, ?_, ?_, ?_⟩
  · intro h
    simp [Blockchain.createTransaction, h]
  · intro hv f hf hlt
    simp [Blockchain.createTransaction, hv, hf, hlt]
  · intro hv hbal
    have hcond : (match tx.fromAddress with
        | some f => decide (s.getBalance f < tx.amount)
        | none => false) = false := by
      cases hfa : tx.fromAddress with
      | none => rfl
      | some f => simpa using not_lt.mpr (hbal f hfa)
    simp [Blockchain.createTransaction, hv, hcond]
  · intro s' hok
    obtain ⟨rfl, -, -⟩ := createTransaction_ok hok
    exact ⟨rfl, rfl, rfl, rfl, rfl⟩

/-- C2: a freshly constructed PoW chain has exactly one block, of index 0
and `previousHash "0"`, and its `miningReward` defaults to 10; after
submitting `Transaction(null, "alice", 50)` and mining with reward address
`"alice"` (for whatever nondeterministic ids, timestamps and sufficient
mining fuel), the chain has two blocks, the pending pool is empty and
`getBalance("alice")` is `50 + miningReward`. -/
theorem pow_genesis_and_first_block_scenario (H : String → String) (gid tid rid : String)
    (gts gbts tts rts bts fuel : Nat) (s₁ s₂ : Blockchain)
    (hsub : (newBlockchain H gid gts gbts).createTransaction
        (Transaction.mk tid none "alice" 50 tts) = .ok s₁)
    (hmine : s₁.minePendingTransactions H "alice" rid rts bts fuel = some s₂) :
    (newBlockchain H gid gts gbts).chain.map (fun b => (b.index, b.previousHash))
        = [(0, "0")]
      ∧ (newBlockchain H gid gts gbts).miningReward = 10
      ∧ s₂.chain.length = 2
      ∧ s₂.pendingTransactions = []
      ∧ s₂.getBalance "alice" = 50 + (newBlockchain H gid gts gbts).miningReward := by
  obtain ⟨rfl, -, -⟩ := createTransaction_ok hsub
  obtain ⟨n, -, rfl⟩ := mine_some hmine
  refine ⟨by simp [newBlockchain, newTransactionBlock], rfl, ?_, rfl, ?_⟩
  · simp [minedState, newBlockchain]
  · simp [minedState, mineTxs, mineRewardTx, newBlockchain, updateBalances,
      applyTransaction, mapSet, mapGet0, mapGet, Blockchain.getBalance]

/-- The chain `powS2` is reachable through the public operations. -/
theorem powS2_reachable : Blockchain.Reachable powHc powS2 := by
  have h0 : Blockchain.Reachable powHc powS0 := Blockchain.Reachable.init "g" 0 0
  have h1 : Blockchain.Reachable powHc powS1 :=
    Blockchain.Reachable.mine "alice" "r" 0 0 1 h0 (by decide)
  have h2 : Blockchain.Reachable powHc powS1b :=
    Blockchain.Reachable.createTx ⟨"t", some "alice", "bob", 5, 0⟩ h1 (by rfl)
  exact Blockchain.Reachable.mine "bob" "r2" 0 0 1 h2 (by decide)

/-- The chain `powS2` is also reachable without ever submitting a coinbase
transaction (the only null-sender transactions sealed are block rewards). -/
theorem powS2_reachableNC : Blockchain.ReachableNC powHc powS2 := by
  have h0 : Blockchain.ReachableNC powHc powS0 := Blockchain.ReachableNC.init "g" 0 0
  have h1 : Blockchain.ReachableNC powHc powS1 :=
    Blockchain.ReachableNC.mine "alice" "r" 0 0 1 h0 (by decide) (by decide)
  have h2 : Blockchain.ReachableNC powHc powS1b :=
    Blockchain.ReachableNC.createTx ⟨"t", some "alice", "bob", 5, 0⟩ h1 (by rfl)
  exact Blockchain.ReachableNC.mine "bob" "r2" 0 0 1 h2 (by decide) (by decide)

/-- C1: the security demo's tamper is not detected.  `powS2` is a chain
reached through the public operations (genesis plus two mined blocks); the
demo's own tamper `chain[1].transactions[0].amount = 1000` changes the
sealed reward amount from 10 to 1000, yet `isChainValid()` still returns
`true`: the block hash binds only the Merkle root of the random transaction
ids, so a transaction's amount is not covered by any integrity check as long
as the transaction stays individually valid. -/
theorem pow_tamper_amount_undetected :
    Blockchain.Reachable powHc powS2
      ∧ ((powS2.chain.getD 1 default).transactions.getD 0 default).amount = 10
      ∧ tamperTransactionAmount powS2 1 0 1000 ≠ powS2
      ∧ (tamperTransactionAmount powS2 1 0 1000).isChainValid powHc = true :=
  ⟨powS2_reachable, by decide, by decide, by decide⟩

/-! ## Witnesses -/

theorem pow_genesis_and_first_block_scenario_witness :
    (newBlockchain powHc "g2" 0 0).createTransaction ⟨"t0", none, "alice", 50, 0⟩
        = .ok c2S1
      ∧ c2S1.minePendingTransactions powHc "alice" "r0" 0 0 1 = some c2S2
      ∧ c2S2.chain.length = 2
      ∧ c2S2.pendingTransactions = []
      ∧ c2S2.getBalance "alice" = 60 := by
  have h := pow_genesis_and_first_block_scenario powHc "g2" "t0" "r0" 0 0 0 0 0 1
    c2S1 c2S2 (by rfl) (by decide)
  refine ⟨by rfl, by decide, h.2.2.1, h.2.2.2.1, ?_⟩
  have hbal := h.2.2.2.2
  simpa [newBlockchain] using hbal

theorem calculateMerkleRoot_spec_witness :
    calculateMerkleRoot (fun s => s) ["x", "yz"] = (fun s : String => s) ("x" ++ "yz")
      ∧ calculateMerkleRoot (fun s => s) ["x", "yz", "w"]
        = (fun s : String => s)
            ((fun s : String => s) ("x" ++ "yz") ++ (fun s : String => s) ("w" ++ "w"))
      ∧ calculateMerkleRoot (fun s => s) ["x", "yz", "w"]
        = calculateMerkleRoot (fun s => s) (merkleLevel (fun s => s) ["x", "yz", "w"])
      ∧ calculateMerkleRoot (fun s => s) ["x", "yz"]
        ≠ calculateMerkleRoot (fun s => s) ["yz", "x"] :=
  ⟨(calculateMerkleRoot_spec (fun s => s) "x" "yz" "w" ["x", "yz", "w"]).2.2.1
      (by decide),
    (calculateMerkleRoot_spec (fun s => s) "x" "yz" "w" ["x", "yz", "w"]).2.2.2.1
      (by decide) (by decide),
    (calculateMerkleRoot_spec (fun s => s) "x" "yz" "w" ["x", "yz", "w"]).2.2.2.2.1
      (by decide),
    (calculateMerkleRoot_spec (fun s => s) "x" "yz" "w" ["x", "yz", "w"]).2.2.2.2.2
      (fun p q hpq => hpq) (by decide) (by decide) (by decide)⟩

theorem transaction_isValid_spec_witness :
    Transaction.isValid ⟨"t", none, "alice", -5, 0⟩ = true
      ∧ Transaction.isValid ⟨"u", some "alice", "bob", 7, 0⟩ = true
      ∧ Transaction.isValid ⟨"w", some "alice", "alice", 7, 0⟩ ≠ true := by
  refine ⟨(transaction_isValid_spec _).1 rfl,
    ((transaction_isValid_spec _).2 "alice" rfl).mpr (by decide), ?_⟩
  intro hcontra
  have h := ((transaction_isValid_spec ⟨"w", some "alice", "alice", 7, 0⟩).2
    "alice" rfl).mp hcontra
  exact h.2.2.2 rfl

theorem pow_createTransaction_spec_witness :
    powS0.createTransaction ⟨"t1", some "alice", "alice", 5, 0⟩
        = .error "Cannot add invalid transaction to chain"
      ∧ powS0.createTransaction ⟨"t2", some "alice", "bob", 5, 0⟩
        = .error "Not enough balance"
      ∧ powS1.createTransaction ⟨"t3", some "alice", "bob", 5, 0⟩ = .ok c5okState := by
  refine ⟨(pow_createTransaction_spec powS0 _).1 (by decide),
    (pow_createTransaction_spec powS0 _).2.1 (by decide) "alice" rfl (by decide),
    (pow_createTransaction_spec powS1 _).2.2.1 (by decide) ?_⟩
  intro f hf
  cases hf
  decide

theorem pow_sealed_blocks_meet_difficulty_target_witness :
    ∃ b, powS2.chain[1]? = some b
      ∧ b.hash.take powS2.difficulty = getDifficultyTarget powS2.difficulty := by
  refine ⟨powS2.chain.getD 1 default, by decide, ?_⟩
  exact pow_sealed_blocks_meet_difficulty_target powHc powS2 powS2_reachable 1
    (powS2.chain.getD 1 default) (le_refl 1) (by decide)

theorem pow_balance_conservation_witness :
    sumBalances powS2.balances
      = powS2.miningReward * ((powS2.chain.length - 1 : Nat) : Int) :=
  pow_balance_conservation powHc powS2 powS2_reachableNC

theorem pos_stakeTokens_spec_witness :
    posS1.stakeTokens "bob" 10 0 = (false, posS1)
      ∧ (posS1.stakeTokens "bob" 40 0).1 = true
      ∧ mapGet (posS1.stakeTokens "bob" 40 0).2.validators "bob"
          = some ⟨"bob", 40, true, 0⟩ := by
  refine ⟨(pos_stakeTokens_spec posS1 "bob" 10 0).1 (Or.inr (by decide)),
    ((pos_stakeTokens_spec posS1 "bob" 40 0).2 (by decide) (by decide)).1, ?_⟩
  exact ((pos_stakeTokens_spec posS1 "bob" 40 0).2 (by decide) (by decide)).2.2.2.1
    (by decide)

/-- The PoS state `posS2` is reachable through the public operations (with a
demo-style balance seeding). -/
theorem posS2_reachable : ProofOfStakeBlockchain.Reachable powHc posS2 := by
  have h0 : ProofOfStakeBlockchain.Reachable powHc (newPoSBlockchain powHc "g" 0 0) :=
    ProofOfStakeBlockchain.Reachable.init "g" 0 0
  have h1 : ProofOfStakeBlockchain.Reachable powHc posS1 :=
    ProofOfStakeBlockchain.Reachable.setBalance "bob" 50 h0
  exact ProofOfStakeBlockchain.Reachable.stake "bob" 40 0 true h1 (by decide)

theorem pos_validator_stake_threshold_witness :
    ∃ v, mapGet posS2.validators "bob" = some v ∧ posS2.minimumStake ≤ v.stake := by
  refine ⟨⟨"bob", 40, true, 0⟩, by decide, ?_⟩
  exact (pos_validator_stake_threshold powHc posS2 posS2_reachable).1 "bob"
    ⟨"bob", 40, true, 0⟩ (by decide)

theorem pos_unstake_burns_residual_stake_witness :
    mapGet posS3.validators "bob" = none
      ∧ posS3.getBalance "bob" = posS2.getBalance "bob" + 20
      ∧ posS3.getTotalStake + sumBalances posS3.balances
          = posS2.getTotalStake + sumBalances posS2.balances - 20
      ∧ posS3.getTotalStake + sumBalances posS3.balances
          < posS2.getTotalStake + sumBalances posS2.balances := by
  have h := pos_unstake_burns_residual_stake posS2 "bob" 20 posS3 ⟨"bob", 40, true, 0⟩
    (by decide) (by decide) (by decide) (by decide) (by decide)
  refine ⟨h.1, h.2.1, ?_, h.2.2.2⟩
  have heq := h.2.2.1
  norm_num at heq
  exact heq
